import Mathlib

/-!
# Verification of the padchat-sdk command/response correlation core

A shallow embedding, in Lean 4, of the asynchronous command/response
correlation and push-event demultiplexing layer of the `padchat-sdk`
repository (files `src/index.js`, `src/helper.js` and their revisions),
together with proofs and refutations of the specified properties.

The embedding models:
* the key-casing normalizer `toCamelCase` (recursive in-place revision,
  `src/unnamed/part_001` lines 19-42, and the shallow copying revision,
  `src/helper.js` lines 19-34);
* the inbound router `onWsMsg` (`src/index.js` lines 1642-1751);
* the temporal behaviour of `asyncSend` / `getCmdRecv` / `_send`
  (`src/index.js` lines 77-117 and 1619-1639) as explicit functions of time;
* the payload-sanitizing step `clearRawMsg` used by `sendCmd`
  (`src/index.js` lines 126-146 and 1754-1759).
-/

/-! ## JavaScript string layer

`toCamelCase` renames a key with
`key.replace(/_(\w)/g, (match, val) => val.toUpperCase())`
(src/unnamed/part_001 line 28).  We model the regex replacement as a
left-to-right scan over the character list: at each position, `_` followed
by a word character (`\w` = ASCII letter, digit or underscore) is replaced
by the uppercased word character, and scanning resumes after the match.
-/

/-- Word-character class `\w` of JavaScript regexes: ASCII letter, digit or
underscore. -/
def isWordChar (c : Char) : Bool :=
  c.isAlpha || c.isDigit || c = '_'

/-- ASCII uppercasing as performed by JavaScript `String.prototype.toUpperCase`
on the (ASCII) characters that occur in protocol keys. -/
def jsUpper : Char → Char
  | 'a' => 'A' | 'b' => 'B' | 'c' => 'C' | 'd' => 'D' | 'e' => 'E'
  | 'f' => 'F' | 'g' => 'G' | 'h' => 'H' | 'i' => 'I' | 'j' => 'J'
  | 'k' => 'K' | 'l' => 'L' | 'm' => 'M' | 'n' => 'N' | 'o' => 'O'
  | 'p' => 'P' | 'q' => 'Q' | 'r' => 'R' | 's' => 'S' | 't' => 'T'
  | 'u' => 'U' | 'v' => 'V' | 'w' => 'W' | 'x' => 'X' | 'y' => 'Y'
  | 'z' => 'Z' | c => c

/-- Global replacement `key.replace(/_(\w)/g, (m, v) => v.toUpperCase())`
as a left-to-right scan over the character list (src/unnamed/part_001
line 28, src/helper.js line 26): an underscore followed by a word character
is replaced by the uppercased word character and scanning resumes after the
match; any other character is copied. -/
def camelChars : List Char → List Char
  | [] => []
  | x :: t =>
      if x = '_' then
        match t with
        | [] => ['_']
        | c :: rest =>
            if isWordChar c then jsUpper c :: camelChars rest
            else '_' :: camelChars (c :: rest)
      else x :: camelChars t

/-- Key renaming of `toCamelCase`: the `/_(\w)/g` replacement, followed,
when `big` is set, by `/^(\w)/` uppercasing of the first character
(src/unnamed/part_001 lines 28-31). -/
def camelKey (big : Bool) (k : String) : String :=
  let s := String.mk (camelChars k.data)
  if big then
    match s.data with
    | [] => s
    | c :: t => if isWordChar c then String.mk (jsUpper c :: t) else s
  else s

/-- Test for two consecutive underscores somewhere in the list. -/
def hasDD : List Char → Bool
  | [] => false
  | x :: t =>
      ((x == '_') && (match t with | c :: _ => c == '_' | [] => false)) || hasDD t

/-- Holds when no underscore of the list is immediately followed by a word
character, i.e. the `/_(\w)/g` regex has no match. -/
def noUW : List Char → Bool
  | [] => true
  | x :: t =>
      (if x = '_' then (match t with | c :: _ => !(isWordChar c) | [] => true) else true)
      && noUW t

/-! ## JSON value model

JavaScript values reachable from `JSON.parse` plus `undefined` (which the
router can store into an item via `item.mType = ...`).  Objects are ordered
key/value sequences, as JavaScript objects are; arrays are ordered value
sequences.  The mutual (rather than nested) formulation makes every
definition below structurally recursive and hence computable by `decide`
and `rfl`. -/

mutual
inductive JVal where
  | null : JVal
  | undefined : JVal
  | bool : Bool → JVal
  | num : Int → JVal
  | str : String → JVal
  | arr : JArr → JVal
  | obj : JObj → JVal
  deriving DecidableEq
inductive JArr where
  | nil : JArr
  | cons : JVal → JArr → JArr
  deriving DecidableEq
inductive JObj where
  | nil : JObj
  | cons : String → JVal → JObj → JObj
  deriving DecidableEq
end

/-- Property read `o[s]`: the value at the (first) binding of key `s`. -/
def JObj.getKey : JObj → String → Option JVal
  | .nil, _ => none
  | .cons k v t, s => if k = s then some v else t.getKey s

/-- Property write `o[s] = w`: overwrite in place if the key exists,
append at the end otherwise — JavaScript property-order semantics. -/
def JObj.setKey : JObj → String → JVal → JObj
  | .nil, s, w => .cons s w .nil
  | .cons k v t, s, w => if k = s then .cons k w t else .cons k v (t.setKey s w)

/-- Property deletion `delete o[s]`. -/
def JObj.delKey : JObj → String → JObj
  | .nil, _ => .nil
  | .cons k v t, s => if k = s then t else .cons k v (t.delKey s)

/-- The ordered key list of an object. -/
def JObj.keys : JObj → List String
  | .nil => []
  | .cons k _ t => k :: t.keys

/-- The ordered binding list of an object. -/
def JObj.toList : JObj → List (String × JVal)
  | .nil => []
  | .cons k v t => (k, v) :: t.toList

/-- Object concatenation (used only to state characterization lemmas). -/
def JObj.app : JObj → JObj → JObj
  | .nil, o => o
  | .cons k v t, o => .cons k v (t.app o)

/-- The ordered element list of an array. -/
def JArr.toList : JArr → List JVal
  | .nil => []
  | .cons v t => v :: t.toList

/-- Array length. -/
def JArr.length : JArr → Nat
  | .nil => 0
  | .cons _ t => t.length + 1

/-! ## The recursive key-casing normalizer

`toCamelCase` of `src/unnamed/part_001` (lines 19-42), the revision the
specification's §4.4 describes and the one `src/index.js` (first revision)
uses on inbound payloads.  The source mutates `obj` in place:

```
for (const key in obj) {
  let newKey = key.replace(/_(\w)/g, ...)        -- camelKey
  if (big) { newKey = newKey.replace(/^(\w)/, ...) }
  if ((obj[key] instanceof Array) || (obj[key] instanceof Object)) {
    obj[key] = toCamelCase(obj[key])             -- recursion, big dropped
  }
  if (newKey !== key) { obj[newKey] = obj[key]; delete obj[key] }
}
return obj
```

The loop enumerates the keys the object had when the loop started (keys
appended during the loop are not revisited).  We precompute, per original
binding, the triple (key, renamed key, recursively converted value), and
fold the write/rename/delete steps over the object state. -/

/-- One loop iteration per precomputed triple `(key, newKey, value)`:
`obj[key] = value`; then, when `newKey ≠ key`,
`obj[newKey] = obj[key]; delete obj[key]`. -/
def camelPairs : JObj → List (String × String × JVal) → JObj
  | st, [] => st
  | st, (k, nk, v) :: ts =>
      let st1 := st.setKey k v
      let st2 := if nk = k then st1 else (st1.setKey nk v).delKey k
      camelPairs st2 ts

mutual
/-- Function `toCamelCase(obj, big = false)` of src/unnamed/part_001 lines
19-42.  Arrays are mapped elementwise (lines 20-22), non-objects returned
unchanged (lines 23-25), objects processed by the key loop (lines 26-41).
Recursive calls drop the `big` flag, as in the source. -/
def toCamelCase : JVal → Bool → JVal
  | .arr a, _ => .arr (camelArr a)
  | .obj o, big => .obj (camelPairs o (camelTriples o big))
  | v, _ => v
/-- Elementwise map `obj.map(item => toCamelCase(item))`
(src/unnamed/part_001 line 21). -/
def camelArr : JArr → JArr
  | .nil => .nil
  | .cons v t => .cons (toCamelCase v false) (camelArr t)
/-- Per original binding, the triple (key, renamed key, converted value). -/
def camelTriples : JObj → Bool → List (String × String × JVal)
  | .nil, _ => []
  | .cons k v t, big => (k, camelKey big k, toCamelCase v false) :: camelTriples t big
end

/-! ## The shallow key-casing normalizer

`toCamelCase` of `src/helper.js` lines 19-34 (the other revision in the
repository): it builds a fresh top-level object with renamed keys and does
not recurse into values.  An `Array` passes the `instanceof Object` test,
so its indices are enumerated into a fresh plain object. -/

/-- Loop `newObj[newKey] = obj[key]` folded over the bindings, building a
fresh object (src/helper.js lines 23-32). -/
def shallowFold (big : Bool) : JObj → JObj → JObj
  | acc, .nil => acc
  | acc, .cons k v t => shallowFold big (acc.setKey (camelKey big k) v) t

/-- Index keys `"0", "1", ...` produced by `for (const key in arr)`. -/
def arrIndexObj : JArr → Nat → JObj
  | .nil, _ => .nil
  | .cons v t, i => .cons (toString i) v (arrIndexObj t (i + 1))

/-- Function `toCamelCase(obj, big = false)` of src/helper.js lines 19-34. -/
def toCamelCaseShallow (x : JVal) (big : Bool := false) : JVal :=
  match x with
  | .obj o => .obj (shallowFold big .nil o)
  | .arr a => .obj (shallowFold big .nil (arrIndexObj a 0))
  | v => v

/-- The caller's view of its argument after `toCamelCase(x)` returns.
The source renames keys of `obj` itself (`obj[newKey] = obj[key];
delete obj[key]`, src/unnamed/part_001 lines 36-37) and returns `obj`
(line 41), so the structure the caller holds afterwards is exactly the
returned, converted structure. -/
def callerAfterToCamelCase (x : JVal) : JVal :=
  toCamelCase x false

/-! ## Normal-form and well-formedness predicates -/

mutual
/-- Normal form: every mapping, recursively, has duplicate-free keys and
every key is a fixed point of the camel renaming. -/
def JVal.normal : JVal → Bool
  | .arr a => a.normalA
  | .obj o => o.normalO
  | _ => true
/-- Normal form of each element of an array. -/
def JArr.normalA : JArr → Bool
  | .nil => true
  | .cons v t => v.normal && t.normalA
/-- Normal form of an object: keys duplicate-free, each key fixed under
the camel renaming, each value in normal form. -/
def JObj.normalO : JObj → Bool
  | .nil => true
  | .cons k v t =>
      !(t.keys.contains k) && (camelKey false k == k) && v.normal && t.normalO
end

mutual
/-- Well-formedness used by the amended idempotence statement: every
mapping, recursively, has duplicate-free keys and no key contains two
consecutive underscores. -/
def JVal.wfnd : JVal → Bool
  | .arr a => a.wfndA
  | .obj o => o.wfndO
  | _ => true
/-- Well-formedness of each element of an array. -/
def JArr.wfndA : JArr → Bool
  | .nil => true
  | .cons v t => v.wfnd && t.wfndA
/-- Well-formedness of an object: keys duplicate-free, no key with two
consecutive underscores, values well-formed. -/
def JObj.wfndO : JObj → Bool
  | .nil => true
  | .cons k v t =>
      !(t.keys.contains k) && !(hasDD k.data) && v.wfnd && t.wfndO
end

/-! ## Characterization helpers for the key loop

Auxiliary functions used only to state and prove the closed form of
`camelPairs`: keys that are already in camel form are updated in place,
renamed keys are appended at the end in processing order. -/

/-- Lookup of the triple registered for a key. -/
def tripLookup : List (String × String × JVal) → String → Option (String × JVal)
  | [], _ => none
  | (k, nk, v) :: ts, s => if k = s then some (nk, v) else tripLookup ts s

/-- In-place part of the loop result: every binding of the state whose key
is not renamed survives in place (with its converted value when it was
processed); renamed bindings disappear from their original slot. -/
def keepT (ts : List (String × String × JVal)) : JObj → JObj
  | .nil => .nil
  | .cons k w t =>
      match tripLookup ts k with
      | none => .cons k w (keepT ts t)
      | some (nk, v) => if nk = k then .cons k v (keepT ts t) else keepT ts t

/-- Appended part of the loop result: the renamed bindings, in processing
order. -/
def renT : List (String × String × JVal) → JObj
  | [] => .nil
  | (k, nk, v) :: ts => if nk = k then renT ts else .cons nk v (renT ts)

/-- Bindings of an object whose key is already in camel form, with
converted values, in original order. -/
def fixObj : JObj → JObj
  | .nil => .nil
  | .cons k v t =>
      if camelKey false k = k then .cons k (toCamelCase v false) (fixObj t)
      else fixObj t

/-- Bindings of an object whose key is renamed by the camel renaming, with
renamed keys and converted values, in original order. -/
def renObj : JObj → JObj
  | .nil => .nil
  | .cons k v t =>
      if camelKey false k = k then renObj t
      else .cons (camelKey false k) (toCamelCase v false) (renObj t)

/-- Identity triples of an object, used to state that the key loop leaves
a normal-form object unchanged. -/
def idTriples : JObj → List (String × String × JVal)
  | .nil => []
  | .cons k v t => (k, k, v) :: idTriples t

/-! ## JavaScript value coercions used by the router -/

/-- Truthiness of a JavaScript value. -/
def JVal.truthy : JVal → Bool
  | .null => false
  | .undefined => false
  | .bool b => b
  | .num n => n != 0
  | .str s => s != ""
  | .arr _ => true
  | .obj _ => true

mutual
/-- String coercion of a JavaScript value, as performed by template
interpolation and string concatenation. -/
def jsStringOf : JVal → String
  | .null => "null"
  | .undefined => "undefined"
  | .bool true => "true"
  | .bool false => "false"
  | .num n => toString n
  | .str s => s
  | .obj _ => "[object Object]"
  | .arr a => jsStringArr a
/-- Array string coercion: elements joined by commas. -/
def jsStringArr : JArr → String
  | .nil => ""
  | .cons v .nil => jsStringElem v
  | .cons v t => jsStringElem v ++ "," ++ jsStringArr t
/-- Element coercion inside an array: null and undefined become empty. -/
def jsStringElem : JVal → String
  | .null => ""
  | .undefined => ""
  | .bool true => "true"
  | .bool false => "false"
  | .num n => toString n
  | .str s => s
  | .obj _ => "[object Object]"
  | .arr a => jsStringArr a
end

/-- Property read on an arbitrary value: objects are consulted, any other
value has no own properties. -/
def getKeyJ : JVal → String → Option JVal
  | .obj o, s => o.getKey s
  | _, _ => none

/-- Member access `v.k` as an expression: an absent property reads as
undefined. -/
def getD (v : JVal) (k : String) : JVal :=
  (getKeyJ v k).getD .undefined

/-- Property write on an arbitrary value; writes on non-objects are not
reached by the modelled code paths. -/
def setField (v : JVal) (k : String) (w : JVal) : JVal :=
  match v with
  | .obj o => .obj (o.setKey k w)
  | x => x

/-! ## The inbound router

Embedding of `onWsMsg` (src/index.js lines 1642-1751, first revision).
The function is modelled as a pure map from the raw inbound frame and the
registered one-shot reply listeners to the updated listener set and the
ordered list of emitted events. -/

/-- Raw inbound frames: a non-string frame, a string that is not valid
JSON (carrying the message of the parse error), or a decoded JSON value. -/
inductive Raw where
  | notStr : Raw
  | badJson : String → Raw
  | parsed : JVal → Raw
  deriving DecidableEq

/-- Events emitted by the router, in emission order.  A `retEv` is a
delivered reply (a registered listener consumed it); an undelivered reply
emission is a no-op and the router then emits the unmonitored-reply
warning instead, as in the source. -/
inductive Ev where
  | msgEv : JVal → Ev
  | retEv : String → JVal → Ev
  | warnEv : String → JVal → Ev
  | errEv : String → Ev
  | namedEv : String → JVal → JVal → Ev
  | pushEv : JVal → Ev
  | otherEv : JVal → Ev
  deriving DecidableEq

/-- Camelization step of the router (src/index.js lines 1656-1659):
`if (data.data) { data.data = Helper.toCamelCase(data.data) }`. -/
def normalizeData (f : JVal) : JVal :=
  match f with
  | .obj o =>
      match o.getKey "data" with
      | some d => if d.truthy then .obj (o.setKey "data" (toCamelCase d false)) else f
      | none => f
  | _ => f

/-- Processing of one push item (src/index.js lines 1730-1740): items whose
primary type is absent, 2048 or 32768 are dropped; otherwise the effective
type is stored into `mType` (the sub-type when the primary type is 5, the
primary type otherwise) and one push event is emitted. -/
def pushItem1 (item : JVal) : Option Ev :=
  let t := getKeyJ item "msgType"
  if t = none || t = some .undefined || t = some (.num 2048) || t = some (.num 32768) then
    none
  else
    let m := if getKeyJ item "msgType" = some (.num 5) then getD item "subType"
             else getD item "msgType"
    some (.pushEv (setField item "mType" m))

/-- Push events of a batch, in the original relative order of the list. -/
def pushEvents (l : List JVal) : List Ev :=
  l.filterMap pushItem1

/-- Push list of a frame: the value `data.data.list` when it is an array. -/
def pushList (f : JVal) : Option JArr :=
  match getKeyJ (getD f "data") "list" with
  | some (.arr a) => some a
  | _ => none

/-- Validation of a push frame (src/index.js line 1726):
`!data.data || !Array.isArray(data.data.list) || data.data.list.length <= 0`. -/
def pushOk (f : JVal) : Bool :=
  (getD f "data").truthy &&
    match pushList f with
    | some a => decide (0 < a.length)
    | none => false

/-- Lifecycle event names forwarded verbatim by the router
(src/index.js lines 1716-1723). -/
def lifecycleNames : List String :=
  ["qrcode", "scan", "login", "loaded", "logout", "over", "sns"]

/-- Test for one of the lifecycle event cases of the inner switch. -/
def isLifecycleEvent (f : JVal) : Bool :=
  match getKeyJ f "event" with
  | some (.str e) => lifecycleNames.contains e
  | _ => false

/-- Routing of a decoded frame (src/index.js lines 1656-1750): camelize
`data.data`, emit the `msg` event, then dispatch on `data.type` and
`data.event`.  Returns the surviving reply listeners and the emitted
events. -/
def routeFrame (pend : List String) (f0 : JVal) : List String × List Ev :=
  let f := normalizeData f0
  let tail : List String × List Ev :=
    if getKeyJ f "type" = some (.str "cmdRet") then
      let c := getD f "cmdId"
      if c.truthy then
        let chan := "RET#" ++ jsStringOf c
        if chan ∈ pend then (pend.erase chan, [.retEv chan f])
        else (pend, [.warnEv ("返回执行结果没有被监听！指令ID:" ++ jsStringOf c) .undefined])
      else (pend, [])
    else if getKeyJ f "type" = some (.str "userEvent") then
      if getKeyJ f "event" = some (.str "warn") then
        (pend, [.warnEv ("服务器返回错误提示：" ++ jsStringOf (getD f "error")) (getD f "success")])
      else if isLifecycleEvent f then
        (pend, [.namedEv (jsStringOf (getD f "event"))
                  (if (getD f "data").truthy then getD f "data" else .obj .nil)
                  (getD f "msg")])
      else if getKeyJ f "event" = some (.str "push") then
        if pushOk f then
          (pend, pushEvents (((pushList f).getD .nil).toList))
        else (pend, [.errEv "推送数据异常！"])
      else (pend, [.otherEv f])
    else (pend, [.otherEv f])
  (tail.1, .msgEv f :: tail.2)

/-- Decode-failure message of the top of `onWsMsg` (src/index.js lines
1645-1653): a non-string frame raises a fixed error inside the try block,
an invalid JSON string raises the parser error; both are caught and
re-emitted as a decode error event. -/
def decodeErrMsg : Raw → String
  | .notStr => "ws传输的数据不是字符串格式！"
  | .badJson e => e
  | .parsed _ => ""

/-- Decode result of the top of `onWsMsg`: only a string frame holding
valid JSON yields a structured value. -/
def parseRaw : Raw → Option JVal
  | .parsed v => some v
  | _ => none

/-- One router step on a raw frame: decode failures emit exactly the decode
error event and change nothing; a decoded `null` frame makes the member
access `data.data` raise (modelled as `none`); any other decoded frame is
routed. -/
def routerStep (pend : List String) (raw : Raw) : Option (List String × List Ev) :=
  match raw with
  | .parsed f => if f = JVal.null then none else some (routeFrame pend f)
  | r => some (pend, [.errEv ("解析msg数据失败: " ++ decodeErrMsg r)])

/-! ## The command dispatcher as functions of time

Temporal model of `asyncSend` / `getCmdRecv` / `_send` (src/index.js lines
77-117 and 1619-1639).  A command is sent at time 0 with a `timeout`
argument documented in milliseconds (src/index.js line 57: the comment of
the enclosing class gives the unit as milliseconds, and the defaults 30000
and 10*1000 are millisecond values).  `reply` is the arrival time of the
matching `cmdRet` frame together with the frame, or `none` when no reply
ever arrives.  Each definition gives the state at absolute time `t`. -/

/-- State of a one-shot JavaScript promise. -/
inductive PState where
  | pending : PState
  | resolved : JVal → PState
  | rejected : String → PState
  deriving DecidableEq

/-- Absolute firing time of the eviction timer: the source arms
`setTimeout(..., timeout * 1000)` (src/index.js lines 1628-1631), i.e. the
millisecond timeout multiplied by 1000. -/
def timerFire (timeout : Nat) : Nat := timeout * 1000

/-- Message of the timeout rejection (src/index.js line 1630). -/
def timeoutErrMsg (timeout : Nat) : String :=
  "等待指令操作结果超时！当前超时时间为:" ++ toString (timeout * 1000)

/-- State at time `t` of the promise returned by `getCmdRecv`
(src/index.js lines 1619-1639): resolved with the reply frame when the
reply arrives while the listener is registered; rejected with the timeout
error when the timer fires first. -/
def getCmdRecvAt (reply : Option (Nat × JVal)) (timeout t : Nat) : PState :=
  match reply with
  | some (r, frame) =>
      if r < timerFire timeout then
        if r ≤ t then .resolved frame else .pending
      else
        if timerFire timeout ≤ t then .rejected (timeoutErrMsg timeout) else .pending
  | none =>
      if timerFire timeout ≤ t then .rejected (timeoutErrMsg timeout) else .pending

/-- Presence at time `t` of the one-shot reply listener registered by
`getCmdRecv`: consumed on delivery (`once`), removed by
`removeAllListeners` when the timer fires (src/index.js lines 1628-1637). -/
def retListenerAt (reply : Option (Nat × JVal)) (timeout t : Nat) : Bool :=
  match reply with
  | some (r, _) =>
      if r < timerFire timeout then decide (t < r) else decide (t < timerFire timeout)
  | none => decide (t < timerFire timeout)

/-- State of the promise returned by `_send` (src/index.js lines 77-87):
resolved with `true` on transmit success, rejected with the transport
error message otherwise. -/
def sendPromiseAt (sendOk : Bool) (emsg : String) : PState :=
  if sendOk then .resolved (.bool true) else .rejected ("ws发送数据失败! err: " ++ emsg)

/-- State at time `t` of the promise returned by `asyncSend`
(src/index.js lines 97-117).  The executor wires only
`getCmdRecv(...).then(data => res(data.data))`; neither the rejection of
`getCmdRecv` nor the rejection of `_send` has a handler reaching `rej`
(the surrounding try/catch can only observe synchronous throws, and both
callees are async functions), so the returned promise settles only by
resolution of `getCmdRecv`. -/
def asyncSendAt (sendOk : Bool) (emsg : String) (reply : Option (Nat × JVal))
    (timeout t : Nat) : PState :=
  match getCmdRecvAt reply timeout t with
  | .resolved frame => .resolved (getD frame "data")
  | _ => .pending

/-! ## The payload-sanitizing step of sendCmd -/

/-- Function `clearRawMsg` (src/index.js lines 1754-1759): on a value of
type object, delete its `data` property in place and return it; other
values pass through. -/
def clearRawMsg : JVal → JVal
  | .obj o => .obj (o.delKey "data")
  | v => v

/-- Underscore renaming of one key: `/([A-Z])/g` inserts an underscore
before every capital letter except at offset 0, then the whole key is
lowercased (src/helper.js lines 50-51). -/
def underChars : Bool → List Char → List Char
  | _, [] => []
  | first, c :: t =>
      if c.isUpper then (if first then [c] else ['_', c]) ++ underChars false t
      else c :: underChars false t

/-- Key renaming of `toUnderLine`. -/
def underKey (k : String) : String :=
  String.mk ((underChars true k.data).map Char.toLower)

/-- Loop of `toUnderLine`, building a fresh object. -/
def underFold : JObj → JObj → JObj
  | acc, .nil => acc
  | acc, .cons k v t => underFold (acc.setKey (underKey k) v) t

/-- Function `toUnderLine` of src/helper.js lines 43-55: builds a fresh
object with underscore-renamed top-level keys; non-objects pass through;
an array is enumerated into a fresh plain object by its indices. -/
def toUnderLine : JVal → JVal
  | .obj o => .obj (underFold .nil o)
  | .arr a => .obj (underFold .nil (arrIndexObj a 0))
  | v => v

/-- Value of the envelope field after the sanitizing step of `sendCmd`
(src/index.js lines 127-131):
`data.rawMsgData = clearRawMsg(data.rawMsgData)` followed by
`data.rawMsgData = Helper.toUnderLine(data.rawMsgData)`. -/
def sendCmdEnvelopeRawMsg (raw : JVal) : JVal :=
  toUnderLine (clearRawMsg raw)

/-- Caller-observable state of the `rawMsgData` argument after `sendCmd`
returns from its sanitizing step: `clearRawMsg` deletes the `data`
property of the caller-owned object in place (src/index.js line 1756),
while `toUnderLine` builds a fresh object and never writes to its argument
(src/helper.js lines 43-55), so the caller is left holding exactly the
deletion result. -/
def callerRawMsgAfterSendCmd (raw : JVal) : JVal :=
  clearRawMsg raw
/-- Noise test of the push filter (src/index.js line 1733):
`type === undefined || type === 2048 || type === 32768`. -/
def isNoise (item : JVal) : Bool :=
  let t := getKeyJ item "msgType"
  t = none || t = some .undefined || t = some (.num 2048) || t = some (.num 32768)

/-- Effective type of a push item (src/index.js line 1738):
the sub-type when the primary type is 5, the primary type otherwise. -/
def effType (item : JVal) : JVal :=
  if getKeyJ item "msgType" = some (.num 5) then getD item "subType"
  else getD item "msgType"

/-- Number of warning events in an emission list. -/
def countWarn (evs : List Ev) : Nat :=
  (evs.filter (fun e => match e with | .warnEv _ _ => true | _ => false)).length

/-- Number of delivered reply events in an emission list. -/
def countRet (evs : List Ev) : Nat :=
  (evs.filter (fun e => match e with | .retEv _ _ => true | _ => false)).length

/-- Number of push events in an emission list. -/
def countPush (evs : List Ev) : Nat :=
  (evs.filter (fun e => match e with | .pushEv _ => true | _ => false)).length


/-! ## String-layer lemmas -/

theorem jsUpper_ne_underscore (c : Char) (h : c ≠ '_') : jsUpper c ≠ '_' := by
  rw [jsUpper.eq_def]
  split <;> first | decide | exact h

theorem camelChars_cons_ne (x : Char) (t : List Char) (h : x ≠ '_') :
    camelChars (x :: t) = x :: camelChars t := by
  rw [camelChars.eq_def]
  simp [h]

theorem camelChars_uu (c : Char) (rest : List Char) : camelChars ('_' :: c :: rest)
    = if isWordChar c then jsUpper c :: camelChars rest
      else '_' :: camelChars (c :: rest) := rfl

theorem noUW_cons_ne (x : Char) (t : List Char) (h : x ≠ '_') :
    noUW (x :: t) = noUW t := by
  rw [noUW.eq_def]
  simp [h]

theorem noUW_uu (c : Char) (t : List Char) :
    noUW ('_' :: c :: t) = ((!(isWordChar c)) && noUW (c :: t)) := rfl

theorem hasDD_uu (x c : Char) (t : List Char) :
    hasDD (x :: c :: t) = (((x == '_') && (c == '_')) || hasDD (c :: t)) := rfl

theorem hasDD_tail : ∀ x t, hasDD (x :: t) = false → hasDD t = false := by
  intro x t h
  cases t with
  | nil => rfl
  | cons c r =>
    rw [hasDD_uu] at h
    simp at h
    exact h.2

theorem hasDD_head (c : Char) (t : List Char) (h : hasDD ('_' :: c :: t) = false) :
    c ≠ '_' := by
  rw [hasDD_uu] at h
  simp at h
  exact h.1

theorem camelChars_noUW : ∀ l, hasDD l = false → noUW (camelChars l) = true
  | [], _ => rfl
  | x :: t, h => by
      by_cases hx : x = '_'
      · subst hx
        cases t with
        | nil => decide
        | cons c rest =>
          have hc : c ≠ '_' := hasDD_head c rest h
          have ht : hasDD (c :: rest) = false := hasDD_tail _ _ h
          have hr : hasDD rest = false := hasDD_tail _ _ ht
          rw [camelChars_uu]
          by_cases hw : isWordChar c = true
          · rw [if_pos hw, noUW_cons_ne _ _ (jsUpper_ne_underscore c hc)]
            exact camelChars_noUW rest hr
          · rw [if_neg hw, camelChars_cons_ne c _ hc, noUW_uu, noUW_cons_ne c _ hc]
            simp only [Bool.and_eq_true, Bool.not_eq_true']
            exact ⟨by simpa using hw, camelChars_noUW rest hr⟩
      · rw [camelChars_cons_ne x t hx, noUW_cons_ne x _ hx]
        exact camelChars_noUW t (hasDD_tail _ _ h)

theorem camelChars_id : ∀ l, noUW l = true → camelChars l = l
  | [], _ => rfl
  | x :: t, h => by
      by_cases hx : x = '_'
      · subst hx
        cases t with
        | nil => rfl
        | cons c rest =>
          rw [noUW_uu] at h
          simp only [Bool.and_eq_true, Bool.not_eq_true'] at h
          have hc : c ≠ '_' := by
            intro hc; rw [hc] at h; simp [isWordChar] at h
          rw [camelChars_uu, if_neg (by simp [h.1]), camelChars_id (c :: rest) h.2]
      · rw [camelChars_cons_ne x t hx,
            camelChars_id t (by rwa [noUW_cons_ne x t hx] at h)]

theorem camelKey_idem (k : String) (h : hasDD k.data = false) :
    camelKey false (camelKey false k) = camelKey false k := by
  simp only [camelKey]
  exact congrArg String.mk (camelChars_id _ (camelChars_noUW k.data h))

/-! ## Object-operation lemmas -/

theorem JObj.app_nil : ∀ o : JObj, o.app .nil = o
  | .nil => rfl
  | .cons k v t => by rw [JObj.app, JObj.app_nil t]

theorem JObj.app_assoc : ∀ a b c : JObj, (a.app b).app c = a.app (b.app c)
  | .nil, _, _ => rfl
  | .cons k v t, b, c => by rw [JObj.app, JObj.app, JObj.app, JObj.app_assoc t]

theorem JObj.keys_app : ∀ a b : JObj, (a.app b).keys = a.keys ++ b.keys
  | .nil, _ => rfl
  | .cons k v t, b => by rw [JObj.app, JObj.keys, JObj.keys, JObj.keys_app t, List.cons_append]

theorem JObj.keys_toList : ∀ o : JObj, o.keys = o.toList.map Prod.fst
  | .nil => rfl
  | .cons k v t => by rw [JObj.keys, JObj.toList, List.map_cons, JObj.keys_toList t]

theorem JObj.keys_setKey_mem : ∀ (o : JObj) (s : String) (w : JVal), s ∈ o.keys →
    (o.setKey s w).keys = o.keys
  | .nil, s, w, h => absurd h (by simp [JObj.keys])
  | .cons k v t, s, w, h => by
      rw [JObj.setKey]
      by_cases hk : k = s
      · rw [if_pos hk, JObj.keys, JObj.keys]
      · rw [if_neg hk, JObj.keys, JObj.keys,
            JObj.keys_setKey_mem t s w (by
              rcases List.mem_cons.mp (by simpa [JObj.keys] using h) with h1 | h1
              · exact absurd h1.symm hk
              · exact h1)]

theorem JObj.setKey_notMem : ∀ (o : JObj) (s : String) (w : JVal), s ∉ o.keys →
    o.setKey s w = o.app (.cons s w .nil)
  | .nil, s, w, _ => rfl
  | .cons k v t, s, w, h => by
      have hk : k ≠ s := by
        intro hk; exact h (by simp [JObj.keys, hk])
      rw [JObj.setKey, if_neg hk, JObj.app,
          JObj.setKey_notMem t s w (fun hm => h (by simp [JObj.keys, hm]))]

theorem JObj.delKey_notMem : ∀ (o : JObj) (s : String), s ∉ o.keys → o.delKey s = o
  | .nil, _, _ => rfl
  | .cons k v t, s, h => by
      have hk : k ≠ s := by
        intro hk; exact h (by simp [JObj.keys, hk])
      rw [JObj.delKey, if_neg hk,
          JObj.delKey_notMem t s (fun hm => h (by simp [JObj.keys, hm]))]

theorem JObj.delKey_setKey : ∀ (o : JObj) (s : String) (w : JVal),
    (o.setKey s w).delKey s = o.delKey s
  | .nil, s, w => by simp [JObj.setKey, JObj.delKey]
  | .cons k v t, s, w => by
      by_cases hk : k = s
      · rw [JObj.setKey, if_pos hk, JObj.delKey, if_pos hk, JObj.delKey, if_pos hk]
      · rw [JObj.setKey, if_neg hk, JObj.delKey, if_neg hk, JObj.delKey, if_neg hk,
            JObj.delKey_setKey t]

theorem JObj.keys_delKey : ∀ (o : JObj) (s : String), (o.delKey s).keys = o.keys.erase s
  | .nil, s => rfl
  | .cons k v t, s => by
      by_cases hk : k = s
      · rw [JObj.delKey, if_pos hk, JObj.keys, List.erase_cons]
        simp [hk]
      · rw [JObj.delKey, if_neg hk, JObj.keys, JObj.keys, JObj.keys_delKey t,
            List.erase_cons]
        simp [hk]

theorem JObj.delKey_app_left : ∀ (a b : JObj) (s : String), s ∈ a.keys →
    (a.app b).delKey s = (a.delKey s).app b
  | .nil, b, s, h => absurd h (by simp [JObj.keys])
  | .cons k v t, b, s, h => by
      by_cases hk : k = s
      · rw [JObj.app, JObj.delKey, if_pos hk, JObj.delKey, if_pos hk]
      · rw [JObj.app, JObj.delKey, if_neg hk, JObj.delKey, if_neg hk, JObj.app,
            JObj.delKey_app_left t b s (by
              rcases List.mem_cons.mp (by simpa [JObj.keys] using h) with h1 | h1
              · exact absurd h1.symm hk
              · exact h1)]

theorem JObj.setKey_self : ∀ (o : JObj) (s : String) (w : JVal),
    o.getKey s = some w → o.setKey s w = o
  | .nil, s, w, h => by simp [JObj.getKey] at h
  | .cons k v t, s, w, h => by
      by_cases hk : k = s
      · rw [JObj.getKey, if_pos hk] at h
        rw [JObj.setKey, if_pos hk]
        injection h with h
        rw [h]
      · rw [JObj.getKey, if_neg hk] at h
        rw [JObj.setKey, if_neg hk, JObj.setKey_self t s w h]

/-! ## Closed form of the key loop -/

theorem tripLookup_eq_none : ∀ (ts : List (String × String × JVal)) (s : String),
    s ∉ ts.map (fun x => x.1) → tripLookup ts s = none
  | [], _, _ => rfl
  | (k, nk, v) :: ts, s, h => by
      have hk : k ≠ s := by
        intro hk; exact h (by simp [hk])
      rw [tripLookup, if_neg hk, tripLookup_eq_none ts s (fun hm => h (by simp [hm]))]

theorem camelPairs_cons (st : JObj) (k nk : String) (v : JVal)
    (ts : List (String × String × JVal)) :
    camelPairs st ((k, nk, v) :: ts)
      = camelPairs (if nk = k then st.setKey k v
                    else ((st.setKey k v).setKey nk v).delKey k) ts := rfl

theorem keepT_cons_obj (ts : List (String × String × JVal)) (k : String) (w : JVal)
    (t : JObj) :
    keepT ts (.cons k w t)
      = match tripLookup ts k with
        | none => .cons k w (keepT ts t)
        | some (nk, v) => if nk = k then .cons k v (keepT ts t) else keepT ts t := rfl

theorem keepT_nil_ts : ∀ st : JObj, keepT [] st = st
  | .nil => rfl
  | .cons k w t => by rw [keepT_cons_obj, tripLookup, keepT_nil_ts t]


theorem keepT_cons_none (ts : List (String × String × JVal)) (k : String) (w : JVal)
    (t : JObj) (h : tripLookup ts k = none) :
    keepT ts (.cons k w t) = .cons k w (keepT ts t) := by
  rw [keepT_cons_obj, h]

theorem keepT_cons_some (ts : List (String × String × JVal)) (k nk : String)
    (v w : JVal) (t : JObj) (h : tripLookup ts k = some (nk, v)) :
    keepT ts (.cons k w t) = if nk = k then .cons k v (keepT ts t) else keepT ts t := by
  rw [keepT_cons_obj, h]

theorem keepT_app (ts : List (String × String × JVal)) :
    ∀ a b : JObj, keepT ts (a.app b) = (keepT ts a).app (keepT ts b)
  | .nil, b => rfl
  | .cons k w t, b => by
      rw [JObj.app]
      cases h : tripLookup ts k with
      | none =>
        rw [keepT_cons_none ts k w _ h, keepT_cons_none ts k w _ h, JObj.app,
            keepT_app ts t b]
      | some p =>
        obtain ⟨nk, v⟩ := p
        rw [keepT_cons_some ts k nk v w _ h, keepT_cons_some ts k nk v w _ h]
        by_cases hnk : nk = k
        · rw [if_pos hnk, if_pos hnk, JObj.app, keepT_app ts t b]
        · rw [if_neg hnk, if_neg hnk, keepT_app ts t b]

theorem keepT_irrel (k nk : String) (v : JVal) (ts : List (String × String × JVal)) :
    ∀ st : JObj, k ∉ st.keys → keepT ((k, nk, v) :: ts) st = keepT ts st
  | .nil, _ => rfl
  | .cons k2 w t, h => by
      have hk2 : k ≠ k2 := by
        intro hk; exact h (by simp [JObj.keys, hk])
      have ht : k ∉ t.keys := fun hm => h (by simp [JObj.keys, hm])
      have htrip : tripLookup ((k, nk, v) :: ts) k2 = tripLookup ts k2 := by
        rw [tripLookup, if_neg hk2]
      cases htl : tripLookup ts k2 with
      | none =>
        rw [keepT_cons_none _ k2 w _ (htrip.trans htl), keepT_cons_none _ k2 w _ htl,
            keepT_irrel k nk v ts t ht]
      | some p =>
        obtain ⟨nk2, v2⟩ := p
        rw [keepT_cons_some _ k2 nk2 v2 w _ (htrip.trans htl),
            keepT_cons_some _ k2 nk2 v2 w _ htl]
        by_cases hnk : nk2 = k2
        · rw [if_pos hnk, if_pos hnk, keepT_irrel k nk v ts t ht]
        · rw [if_neg hnk, if_neg hnk, keepT_irrel k nk v ts t ht]

theorem keepT_cons_set (k : String) (v : JVal) (ts : List (String × String × JVal))
    (hts : k ∉ ts.map (fun x => x.1)) :
    ∀ st : JObj, st.keys.Nodup → k ∈ st.keys →
      keepT ((k, k, v) :: ts) st = keepT ts (st.setKey k v)
  | .nil, _, hmem => absurd hmem (by simp [JObj.keys])
  | .cons k2 w t, hnd, hmem => by
      have hnd1 : t.keys.Nodup := by
        rw [JObj.keys] at hnd; exact hnd.of_cons
      have hnd2 : k2 ∉ t.keys := by
        rw [JObj.keys] at hnd; exact (List.nodup_cons.mp hnd).1
      by_cases hk2 : k2 = k
      · subst hk2
        rw [JObj.setKey, if_pos rfl,
            keepT_cons_some ((k2, k2, v) :: ts) k2 k2 v w t (by rw [tripLookup, if_pos rfl]),
            if_pos rfl, keepT_cons_none ts k2 v t (tripLookup_eq_none ts k2 hts),
            keepT_irrel k2 k2 v ts t hnd2]
      · have hmem' : k ∈ t.keys := by
          rcases List.mem_cons.mp (by simpa [JObj.keys] using hmem) with h1 | h1
          · exact absurd h1.symm hk2
          · exact h1
        have htrip : tripLookup ((k, k, v) :: ts) k2 = tripLookup ts k2 := by
          rw [tripLookup, if_neg (fun h => hk2 h.symm)]
        rw [JObj.setKey, if_neg (fun h => hk2 h)]
        cases htl : tripLookup ts k2 with
        | none =>
          rw [keepT_cons_none _ k2 w _ (htrip.trans htl), keepT_cons_none _ k2 w _ htl,
              keepT_cons_set k v ts hts t hnd1 hmem']
        | some p =>
          obtain ⟨nk2, v2⟩ := p
          rw [keepT_cons_some _ k2 nk2 v2 w _ (htrip.trans htl),
              keepT_cons_some _ k2 nk2 v2 w _ htl]
          by_cases hnk : nk2 = k2
          · rw [if_pos hnk, if_pos hnk, keepT_cons_set k v ts hts t hnd1 hmem']
          · rw [if_neg hnk, if_neg hnk, keepT_cons_set k v ts hts t hnd1 hmem']

theorem keepT_cons_del (k nk : String) (v : JVal) (ts : List (String × String × JVal))
    (hnk : nk ≠ k) (hts : k ∉ ts.map (fun x => x.1)) :
    ∀ st : JObj, st.keys.Nodup →
      keepT ((k, nk, v) :: ts) st = keepT ts (st.delKey k)
  | .nil, _ => rfl
  | .cons k2 w t, hnd => by
      have hnd1 : t.keys.Nodup := by
        rw [JObj.keys] at hnd; exact hnd.of_cons
      have hnd2 : k2 ∉ t.keys := by
        rw [JObj.keys] at hnd; exact (List.nodup_cons.mp hnd).1
      by_cases hk2 : k2 = k
      · subst hk2
        rw [JObj.delKey, if_pos rfl,
            keepT_cons_some ((k2, nk, v) :: ts) k2 nk v w t (by rw [tripLookup, if_pos rfl]),
            if_neg hnk, keepT_irrel k2 nk v ts t hnd2]
      · have htrip : tripLookup ((k, nk, v) :: ts) k2 = tripLookup ts k2 := by
          rw [tripLookup, if_neg (fun h => hk2 h.symm)]
        rw [JObj.delKey, if_neg (fun h => hk2 h)]
        cases htl : tripLookup ts k2 with
        | none =>
          rw [keepT_cons_none _ k2 w _ (htrip.trans htl), keepT_cons_none _ k2 w _ htl,
              keepT_cons_del k nk v ts hnk hts t hnd1]
        | some p =>
          obtain ⟨nk2, v2⟩ := p
          rw [keepT_cons_some _ k2 nk2 v2 w _ (htrip.trans htl),
              keepT_cons_some _ k2 nk2 v2 w _ htl]
          by_cases hnk2 : nk2 = k2
          · rw [if_pos hnk2, if_pos hnk2, keepT_cons_del k nk v ts hnk hts t hnd1]
          · rw [if_neg hnk2, if_neg hnk2, keepT_cons_del k nk v ts hnk hts t hnd1]

theorem renT_cons (k nk : String) (v : JVal) (ts : List (String × String × JVal)) :
    renT ((k, nk, v) :: ts) = if nk = k then renT ts else .cons nk v (renT ts) := rfl

theorem camelPairs_closed : ∀ (ts : List (String × String × JVal)) (st : JObj),
    st.keys.Nodup →
    (ts.map fun x => x.1).Nodup →
    (ts.map fun x => x.2.1).Nodup →
    (∀ x ∈ ts, x.1 ∈ st.keys) →
    (∀ x ∈ ts, x.2.1 = x.1 ∨ x.2.1 ∉ st.keys) →
    camelPairs st ts = (keepT ts st).app (renT ts)
  | [], st, _, _, _, _, _ => by
      rw [camelPairs, keepT_nil_ts]
      exact (JObj.app_nil st).symm
  | (k, nk, v) :: ts, st, hstN, htsN, hnkN, hmem, hfresh => by
      have hkmem : k ∈ st.keys := hmem (k, nk, v) (by simp)
      have htsN1 : (ts.map fun x => x.1).Nodup := by
        rw [List.map_cons] at htsN; exact htsN.of_cons
      have htsK : k ∉ ts.map (fun x => x.1) := by
        rw [List.map_cons] at htsN; exact (List.nodup_cons.mp htsN).1
      have hnkN1 : (ts.map fun x => x.2.1).Nodup := by
        rw [List.map_cons] at hnkN; exact hnkN.of_cons
      have hnkK : nk ∉ ts.map (fun x => x.2.1) := by
        rw [List.map_cons] at hnkN; exact (List.nodup_cons.mp hnkN).1
      rw [camelPairs_cons]
      by_cases hnk : nk = k
      · rw [if_pos hnk, renT_cons, if_pos hnk, hnk,
            keepT_cons_set k v ts htsK st hstN hkmem]
        exact camelPairs_closed ts (st.setKey k v)
          (by rw [JObj.keys_setKey_mem st k v hkmem]; exact hstN)
          htsN1 hnkN1
          (fun x hx => by
            rw [JObj.keys_setKey_mem st k v hkmem]; exact hmem x (by simp [hx]))
          (fun x hx => by
            rw [JObj.keys_setKey_mem st k v hkmem]; exact hfresh x (by simp [hx]))
      · have hnkmem : nk ∉ st.keys := by
          rcases hfresh (k, nk, v) (by simp) with h1 | h1
          · exact absurd h1 hnk
          · exact h1
        have hst2 : ((st.setKey k v).setKey nk v).delKey k
            = (st.delKey k).app (.cons nk v .nil) := by
          rw [JObj.setKey_notMem (st.setKey k v) nk v
                (by rw [JObj.keys_setKey_mem st k v hkmem]; exact hnkmem),
              JObj.delKey_app_left (st.setKey k v) _ k
                (by rw [JObj.keys_setKey_mem st k v hkmem]; exact hkmem),
              JObj.delKey_setKey]
        have hkeys2 : ((st.delKey k).app (.cons nk v .nil)).keys
            = st.keys.erase k ++ [nk] := by
          rw [JObj.keys_app, JObj.keys_delKey, JObj.keys, JObj.keys]
        rw [if_neg hnk, renT_cons, if_neg hnk,
            keepT_cons_del k nk v ts hnk htsK st hstN, hst2]
        have hrec := camelPairs_closed ts ((st.delKey k).app (.cons nk v .nil))
          (by
            rw [hkeys2, List.nodup_append]
            refine ⟨hstN.erase k, List.nodup_singleton nk, ?_⟩
            intro a ha hb
            rw [List.mem_singleton] at hb
            subst hb
            exact hnkmem (List.mem_of_mem_erase ha))
          htsN1 hnkN1
          (fun x hx => by
            rw [hkeys2]
            refine List.mem_append_left _ ?_
            refine List.mem_erase_of_ne ?_ |>.mpr (hmem x (by simp [hx]))
            intro hxk
            exact htsK (by rw [← hxk]; exact List.mem_map_of_mem _ hx)
          )
          (fun x hx => by
            rcases hfresh x (by simp [hx]) with h1 | h1
            · exact Or.inl h1
            · refine Or.inr ?_
              rw [hkeys2, List.mem_append]
              rintro (ha | hb)
              · exact h1 (List.mem_of_mem_erase ha)
              · rw [List.mem_singleton] at hb
                exact hnkK (by rw [← hb]; exact List.mem_map_of_mem _ hx))
        rw [hrec, keepT_app, JObj.app_assoc]
        have hone : keepT ts (JObj.cons nk v .nil)
            = JObj.cons nk v .nil := by
          rw [keepT_cons_none ts nk v _ (tripLookup_eq_none ts nk (by
            intro hm
            rcases List.mem_map.mp hm with ⟨x, hx, hxe⟩
            exact hnkmem (by rw [← hxe]; exact hmem x (by simp [hx]))))]
          rfl
        rw [hone]
        rfl

/-! ## Specializing the closed form to the triples of an object -/

theorem toCamelCase_obj (o : JObj) (big : Bool) :
    toCamelCase (.obj o) big = .obj (camelPairs o (camelTriples o big)) := rfl

theorem camelTriples_cons (k : String) (v : JVal) (t : JObj) (big : Bool) :
    camelTriples (.cons k v t) big
      = (k, camelKey big k, toCamelCase v false) :: camelTriples t big := rfl

theorem camelTriples_map_fst : ∀ (o : JObj) (big : Bool),
    (camelTriples o big).map (fun x => x.1) = o.keys
  | .nil, _ => rfl
  | .cons k v t, big => by
      rw [camelTriples_cons, List.map_cons, JObj.keys, camelTriples_map_fst t]

theorem camelTriples_map_nk : ∀ (o : JObj) (big : Bool),
    (camelTriples o big).map (fun x => x.2.1) = o.keys.map (camelKey big)
  | .nil, _ => rfl
  | .cons k v t, big => by
      rw [camelTriples_cons, List.map_cons, JObj.keys, List.map_cons,
          camelTriples_map_nk t]

theorem camelTriples_mem : ∀ (o : JObj) (big : Bool) (x : String × String × JVal),
    x ∈ camelTriples o big → x.1 ∈ o.keys ∧ x.2.1 = camelKey big x.1
  | .nil, _, x, h => absurd h (by simp [camelTriples])
  | .cons k v t, big, x, h => by
      rw [camelTriples_cons, List.mem_cons] at h
      rcases h with h | h
      · subst h
        exact ⟨by simp [JObj.keys], rfl⟩
      · obtain ⟨h1, h2⟩ := camelTriples_mem t big x h
        exact ⟨by simp [JObj.keys, h1], h2⟩

theorem keepT_camelTriples :
    ∀ o : JObj, o.keys.Nodup → keepT (camelTriples o false) o = fixObj o
  | .nil, _ => rfl
  | .cons k v t, hnd => by
      have hnd1 : t.keys.Nodup := by
        rw [JObj.keys] at hnd; exact hnd.of_cons
      have hnd2 : k ∉ t.keys := by
        rw [JObj.keys] at hnd; exact (List.nodup_cons.mp hnd).1
      rw [camelTriples_cons,
          keepT_cons_some _ k (camelKey false k) (toCamelCase v false) v t
            (by rw [tripLookup, if_pos rfl]),
          keepT_irrel k _ _ _ t hnd2, keepT_camelTriples t hnd1]
      rfl

theorem renT_camelTriples : ∀ o : JObj,
    renT (camelTriples o false) = renObj o
  | .nil => rfl
  | .cons k v t => by
      rw [camelTriples_cons, renT_cons, renT_camelTriples t]
      rfl

/-- Closed form of the recursive normalizer on an object: bindings whose
key is already camel survive in place with converted values; renamed
bindings are appended, in the original relative order. -/
theorem toCamelCase_obj_closed (o : JObj) (h1 : o.keys.Nodup)
    (h2 : (o.keys.map (camelKey false)).Nodup)
    (h3 : ∀ k ∈ o.keys, camelKey false k = k ∨ camelKey false k ∉ o.keys) :
    toCamelCase (.obj o) false = .obj ((fixObj o).app (renObj o)) := by
  rw [toCamelCase_obj,
      camelPairs_closed (camelTriples o false) o h1
        (by rw [camelTriples_map_fst]; exact h1)
        (by rw [camelTriples_map_nk]; exact h2)
        (fun x hx => (camelTriples_mem o false x hx).1)
        (fun x hx => by
          obtain ⟨hm, he⟩ := camelTriples_mem o false x hx
          rw [he]
          exact h3 x.1 hm),
      keepT_camelTriples o h1, renT_camelTriples o]

theorem fix_ren_keys_perm : ∀ o : JObj,
    ((fixObj o).app (renObj o)).keys.Perm (o.keys.map (camelKey false))
  | .nil => List.Perm.refl _
  | .cons k v t => by
      rw [JObj.keys, List.map_cons]
      by_cases hc : camelKey false k = k
      · rw [fixObj, if_pos hc, renObj, if_pos hc, JObj.app, JObj.keys, hc]
        exact (fix_ren_keys_perm t).cons k
      · rw [fixObj, if_neg hc, renObj, if_neg hc]
        have hmid : ((fixObj t).app (.cons (camelKey false k) (toCamelCase v false) (renObj t))).keys.Perm
            (camelKey false k :: ((fixObj t).app (renObj t)).keys) := by
          rw [JObj.keys_app, JObj.keys, JObj.keys_app]
          exact List.perm_middle
        exact hmid.trans ((fix_ren_keys_perm t).cons _)

/-! ## Normal-form objects are fixed points -/

theorem normalO_cons (k : String) (v : JVal) (t : JObj) :
    (JObj.cons k v t).normalO = true
      ↔ (k ∉ t.keys ∧ camelKey false k = k ∧ v.normal = true ∧ t.normalO = true) := by
  rw [JObj.normalO]
  simp [List.contains_iff_exists_mem_beq]
  tauto

theorem wfndO_cons (k : String) (v : JVal) (t : JObj) :
    (JObj.cons k v t).wfndO = true
      ↔ (k ∉ t.keys ∧ hasDD k.data = false ∧ v.wfnd = true ∧ t.wfndO = true) := by
  rw [JObj.wfndO]
  simp [List.contains_iff_exists_mem_beq]
  tauto

theorem normalO_nodup : ∀ o : JObj, o.normalO = true → o.keys.Nodup
  | .nil, _ => List.nodup_nil
  | .cons k v t, h => by
      obtain ⟨h1, _, _, h4⟩ := (normalO_cons k v t).mp h
      rw [JObj.keys]
      exact List.nodup_cons.mpr ⟨h1, normalO_nodup t h4⟩

theorem wfndO_nodup : ∀ o : JObj, o.wfndO = true → o.keys.Nodup
  | .nil, _ => List.nodup_nil
  | .cons k v t, h => by
      obtain ⟨h1, _, _, h4⟩ := (wfndO_cons k v t).mp h
      rw [JObj.keys]
      exact List.nodup_cons.mpr ⟨h1, wfndO_nodup t h4⟩

theorem normalO_getKey : ∀ o : JObj, o.normalO = true →
    ∀ p ∈ o.toList, o.getKey p.1 = some p.2
  | .cons k v t, h, p, hp => by
      obtain ⟨h1, _, _, h4⟩ := (normalO_cons k v t).mp h
      rw [JObj.toList, List.mem_cons] at hp
      rcases hp with hp | hp
      · subst hp
        rw [JObj.getKey, if_pos rfl]
      · have hne : k ≠ p.1 := by
          intro he
          refine h1 ?_
          rw [he, JObj.keys_toList]
          exact List.mem_map_of_mem _ hp
        rw [JObj.getKey, if_neg hne]
        exact normalO_getKey t h4 p hp

theorem camelPairs_idT : ∀ (o st : JObj),
    (∀ p ∈ o.toList, st.getKey p.1 = some p.2) → camelPairs st (idTriples o) = st
  | .nil, st, _ => rfl
  | .cons k v t, st, h => by
      rw [idTriples, camelPairs_cons, if_pos rfl,
          JObj.setKey_self st k v (h (k, v) (by rw [JObj.toList]; simp))]
      exact camelPairs_idT t st (fun p hp => h p (by rw [JObj.toList]; simp [hp]))

mutual
theorem normal_fix : ∀ v : JVal, v.normal = true → toCamelCase v false = v
  | .null, _ => rfl
  | .undefined, _ => rfl
  | .bool _, _ => rfl
  | .num _, _ => rfl
  | .str _, _ => rfl
  | .arr a, h => by
      rw [toCamelCase, normalA_fix a (by rwa [JVal.normal] at h)]
  | .obj o, h => by
      have ho : o.normalO = true := by rwa [JVal.normal] at h
      rw [toCamelCase_obj, normalO_trip o ho, camelPairs_idT o o (normalO_getKey o ho)]
theorem normalA_fix : ∀ a : JArr, a.normalA = true → camelArr a = a
  | .nil, _ => rfl
  | .cons v t, h => by
      rw [JArr.normalA, Bool.and_eq_true] at h
      rw [camelArr, normal_fix v h.1, normalA_fix t h.2]
theorem normalO_trip : ∀ o : JObj, o.normalO = true → camelTriples o false = idTriples o
  | .nil, _ => rfl
  | .cons k v t, h => by
      obtain ⟨_, h2, h3, h4⟩ := (normalO_cons k v t).mp h
      rw [camelTriples_cons, idTriples, h2, normal_fix v h3, normalO_trip t h4]
end

/-! ## The key loop produces a normal-form object -/

theorem keys_setKey : ∀ (o : JObj) (s : String) (w : JVal),
    (o.setKey s w).keys = if s ∈ o.keys then o.keys else o.keys ++ [s]
  | .nil, s, w => by simp [JObj.setKey, JObj.keys]
  | .cons k v t, s, w => by
      by_cases hk : k = s
      · rw [JObj.setKey, if_pos hk, JObj.keys, JObj.keys, if_pos (by simp [hk])]
      · rw [JObj.setKey, if_neg hk, JObj.keys, JObj.keys, keys_setKey t s w]
        by_cases hm : s ∈ t.keys
        · rw [if_pos hm, if_pos (by simp [hm])]
        · have hks : s ∉ k :: t.keys := by
            intro hc
            rcases List.mem_cons.mp hc with h1 | h1
            · exact hk h1.symm
            · exact hm h1
          rw [if_neg hm, if_neg hks, List.cons_append]

theorem nodup_setKey (o : JObj) (s : String) (w : JVal) (h : o.keys.Nodup) :
    (o.setKey s w).keys.Nodup := by
  rw [keys_setKey]
  by_cases hm : s ∈ o.keys
  · rwa [if_pos hm]
  · rw [if_neg hm]
    simp [List.nodup_append, h, hm]

theorem nodup_delKey (o : JObj) (s : String) (h : o.keys.Nodup) :
    (o.delKey s).keys.Nodup := by
  rw [JObj.keys_delKey]
  exact h.erase s

theorem toList_setKey_mem (s : String) (w : JVal) :
    ∀ o : JObj, o.keys.Nodup → ∀ p : String × JVal,
      (p ∈ (o.setKey s w).toList ↔ (p = (s, w) ∨ (p ∈ o.toList ∧ p.1 ≠ s)))
  | .nil, _, p => by simp [JObj.setKey, JObj.toList]
  | .cons k v t, hnd, p => by
      have hnd1 : t.keys.Nodup := by
        rw [JObj.keys] at hnd; exact hnd.of_cons
      have hnd2 : k ∉ t.keys := by
        rw [JObj.keys] at hnd; exact (List.nodup_cons.mp hnd).1
      by_cases hk : k = s
      · subst hk
        rw [JObj.setKey, if_pos rfl, JObj.toList, JObj.toList]
        constructor
        · intro hp
          rcases List.mem_cons.mp hp with hp | hp
          · exact Or.inl hp
          · refine Or.inr ⟨by simp [hp], ?_⟩
            intro he
            refine hnd2 ?_
            rw [← he, JObj.keys_toList]
            exact List.mem_map_of_mem _ hp
        · rintro (hp | ⟨hp, hne⟩)
          · exact List.mem_cons.mpr (Or.inl hp)
          · rcases List.mem_cons.mp hp with hp | hp
            · exact absurd (by rw [hp]) hne
            · exact List.mem_cons.mpr (Or.inr hp)
      · rw [JObj.setKey, if_neg hk, JObj.toList, JObj.toList]
        constructor
        · intro hp
          rcases List.mem_cons.mp hp with hp | hp
          · exact Or.inr ⟨List.mem_cons.mpr (Or.inl hp), by rw [hp]; exact fun h => hk h⟩
          · rcases (toList_setKey_mem s w t hnd1 p).mp hp with hp | ⟨hp, hne⟩
            · exact Or.inl hp
            · exact Or.inr ⟨List.mem_cons.mpr (Or.inr hp), hne⟩
        · rintro (hp | ⟨hp, hne⟩)
          · refine List.mem_cons.mpr (Or.inr ?_)
            exact (toList_setKey_mem s w t hnd1 p).mpr (Or.inl hp)
          · rcases List.mem_cons.mp hp with hp | hp
            · exact List.mem_cons.mpr (Or.inl hp)
            · refine List.mem_cons.mpr (Or.inr ?_)
              exact (toList_setKey_mem s w t hnd1 p).mpr (Or.inr ⟨hp, hne⟩)

theorem toList_delKey_mem (s : String) :
    ∀ o : JObj, o.keys.Nodup → ∀ p : String × JVal,
      (p ∈ (o.delKey s).toList ↔ (p ∈ o.toList ∧ p.1 ≠ s))
  | .nil, _, p => by simp [JObj.delKey, JObj.toList]
  | .cons k v t, hnd, p => by
      have hnd1 : t.keys.Nodup := by
        rw [JObj.keys] at hnd; exact hnd.of_cons
      have hnd2 : k ∉ t.keys := by
        rw [JObj.keys] at hnd; exact (List.nodup_cons.mp hnd).1
      by_cases hk : k = s
      · subst hk
        rw [JObj.delKey, if_pos rfl, JObj.toList]
        constructor
        · intro hp
          refine ⟨List.mem_cons.mpr (Or.inr hp), ?_⟩
          intro he
          refine hnd2 ?_
          rw [← he, JObj.keys_toList]
          exact List.mem_map_of_mem _ hp
        · rintro ⟨hp, hne⟩
          rcases List.mem_cons.mp hp with hp | hp
          · exact absurd (by rw [hp]) hne
          · exact hp
      · rw [JObj.delKey, if_neg hk, JObj.toList, JObj.toList]
        constructor
        · intro hp
          rcases List.mem_cons.mp hp with hp | hp
          · exact ⟨List.mem_cons.mpr (Or.inl hp), by rw [hp]; exact fun h => hk h⟩
          · obtain ⟨hp, hne⟩ := (toList_delKey_mem s t hnd1 p).mp hp
            exact ⟨List.mem_cons.mpr (Or.inr hp), hne⟩
        · rintro ⟨hp, hne⟩
          rcases List.mem_cons.mp hp with hp | hp
          · exact List.mem_cons.mpr (Or.inl hp)
          · exact List.mem_cons.mpr (Or.inr ((toList_delKey_mem s t hnd1 p).mpr ⟨hp, hne⟩))

theorem normalO_of_all : ∀ o : JObj, o.keys.Nodup →
    (∀ p ∈ o.toList, camelKey false p.1 = p.1 ∧ p.2.normal = true) → o.normalO = true
  | .nil, _, _ => rfl
  | .cons k v t, hnd, h => by
      have hnd1 : t.keys.Nodup := by
        rw [JObj.keys] at hnd; exact hnd.of_cons
      have hnd2 : k ∉ t.keys := by
        rw [JObj.keys] at hnd; exact (List.nodup_cons.mp hnd).1
      have hh := h (k, v) (by rw [JObj.toList]; simp)
      refine (normalO_cons k v t).mpr ⟨hnd2, hh.1, hh.2, ?_⟩
      exact normalO_of_all t hnd1 (fun p hp => h p (by rw [JObj.toList]; simp [hp]))

theorem camelPairs_normal : ∀ (ts : List (String × String × JVal)) (st : JObj),
    st.keys.Nodup →
    (∀ x ∈ ts, camelKey false x.2.1 = x.2.1 ∧ x.2.2.normal = true) →
    (∀ p ∈ st.toList, (camelKey false p.1 = p.1 ∧ p.2.normal = true) ∨ p.1 ∈ ts.map (fun x => x.1)) →
    (camelPairs st ts).normalO = true
  | [], st, hstN, _, hinv => by
      rw [camelPairs]
      refine normalO_of_all st hstN (fun p hp => ?_)
      rcases hinv p hp with h | h
      · exact h
      · simp at h
  | (k, nk, v) :: ts, st, hstN, hts, hinv => by
      have hts0 := hts (k, nk, v) (by simp)
      rw [camelPairs_cons]
      by_cases hnk : nk = k
      · rw [if_pos hnk]
        refine camelPairs_normal ts (st.setKey k v) (nodup_setKey st k v hstN)
          (fun x hx => hts x (by simp [hx])) (fun p hp => ?_)
        rcases (toList_setKey_mem k v st hstN p).mp hp with hp | ⟨hp, hne⟩
        · subst hp
          exact Or.inl ⟨by rw [← hnk]; exact hts0.1, hts0.2⟩
        · rcases hinv p hp with h | h
          · exact Or.inl h
          · rw [List.map_cons, List.mem_cons] at h
            rcases h with h | h
            · exact absurd h hne
            · exact Or.inr h
      · rw [if_neg hnk]
        have hndA : ((st.setKey k v).setKey nk v).keys.Nodup :=
          nodup_setKey _ nk v (nodup_setKey st k v hstN)
        refine camelPairs_normal ts _ (nodup_delKey _ k hndA)
          (fun x hx => hts x (by simp [hx])) (fun p hp => ?_)
        obtain ⟨hp, hpk⟩ := (toList_delKey_mem k _ hndA p).mp hp
        rcases (toList_setKey_mem nk v _ (nodup_setKey st k v hstN) p).mp hp with hp | ⟨hp, hnnk⟩
        · subst hp
          exact Or.inl ⟨hts0.1, hts0.2⟩
        · rcases (toList_setKey_mem k v st hstN p).mp hp with hp | ⟨hp, hne⟩
          · exact absurd (by rw [hp]) hpk
          · rcases hinv p hp with h | h
            · exact Or.inl h
            · rw [List.map_cons, List.mem_cons] at h
              rcases h with h | h
              · exact absurd h hne
              · exact Or.inr h

mutual
theorem wfnd_normal : ∀ v : JVal, v.wfnd = true → (toCamelCase v false).normal = true
  | .null, _ => rfl
  | .undefined, _ => rfl
  | .bool _, _ => rfl
  | .num _, _ => rfl
  | .str _, _ => rfl
  | .arr a, h => by
      rw [toCamelCase, JVal.normal]
      exact wfndA_normalA a (by rwa [JVal.wfnd] at h)
  | .obj o, h => by
      have ho : o.wfndO = true := by rwa [JVal.wfnd] at h
      rw [toCamelCase_obj, JVal.normal]
      refine camelPairs_normal (camelTriples o false) o (wfndO_nodup o ho)
        (wfndO_trip o ho) (fun p hp => ?_)
      refine Or.inr ?_
      rw [camelTriples_map_fst, JObj.keys_toList]
      exact List.mem_map_of_mem _ hp
theorem wfndA_normalA : ∀ a : JArr, a.wfndA = true → (camelArr a).normalA = true
  | .nil, _ => rfl
  | .cons v t, h => by
      rw [JArr.wfndA, Bool.and_eq_true] at h
      rw [camelArr, JArr.normalA, Bool.and_eq_true]
      exact ⟨wfnd_normal v h.1, wfndA_normalA t h.2⟩
theorem wfndO_trip : ∀ o : JObj, o.wfndO = true →
    ∀ x ∈ camelTriples o false, camelKey false x.2.1 = x.2.1 ∧ x.2.2.normal = true
  | .cons k v t, h, x, hx => by
      obtain ⟨_, h2, h3, h4⟩ := (wfndO_cons k v t).mp h
      rw [camelTriples_cons, List.mem_cons] at hx
      rcases hx with hx | hx
      · subst hx
        exact ⟨camelKey_idem k h2, wfnd_normal v h3⟩
      · exact wfndO_trip t h4 x hx
end

/-- Idempotence of the recursive normalizer on well-formed structures. -/
theorem toCamelCase_idem (v : JVal) (h : v.wfnd = true) :
    toCamelCase (toCamelCase v false) false = toCamelCase v false :=
  normal_fix (toCamelCase v false) (wfnd_normal v h)

/-! ## Underscore-separated keys become camel case -/

theorem camelChars_no_underscore : ∀ l : List Char, (∀ c ∈ l, c ≠ '_') → camelChars l = l
  | [], _ => rfl
  | x :: t, h => by
      rw [camelChars_cons_ne x t (h x (by simp)),
          camelChars_no_underscore t (fun c hc => h c (by simp [hc]))]

theorem camelChars_seg : ∀ (a : List Char) (c : Char) (r : List Char),
    (∀ x ∈ a, x ≠ '_') → isWordChar c = true → (∀ x ∈ r, x ≠ '_') →
    camelChars (a ++ '_' :: c :: r) = a ++ jsUpper c :: r
  | [], c, r, _, hc, hr => by
      rw [List.nil_append, List.nil_append, camelChars_uu, if_pos hc,
          camelChars_no_underscore r hr]
  | x :: a, c, r, ha, hc, hr => by
      rw [List.cons_append, camelChars_cons_ne x _ (ha x (by simp)),
          camelChars_seg a c r (fun y hy => ha y (by simp [hy])) hc hr,
          List.cons_append]

theorem camelKey_seg (a : String) (c : Char) (r : List Char)
    (ha : ∀ x ∈ a.data, x ≠ '_') (hc : isWordChar c = true) (hr : ∀ x ∈ r, x ≠ '_') :
    camelKey false (a ++ "_" ++ String.mk (c :: r)) = a ++ String.mk (jsUpper c :: r) := by
  apply String.ext
  show camelChars (a ++ "_" ++ String.mk (c :: r)).data = (a ++ String.mk (jsUpper c :: r)).data
  rw [String.data_append, String.data_append, String.data_append]
  show camelChars (a.data ++ ['_'] ++ (c :: r)) = a.data ++ (jsUpper c :: r)
  rw [List.append_assoc, List.singleton_append]
  exact camelChars_seg a.data c r ha hc hr

theorem camelArr_toList : ∀ a : JArr,
    (camelArr a).toList = a.toList.map (fun v => toCamelCase v false)
  | .nil => rfl
  | .cons v t => by
      rw [camelArr, JArr.toList, JArr.toList, List.map_cons, camelArr_toList t]

theorem getKey_setKey_ne : ∀ (o : JObj) (s k : String) (w : JVal), k ≠ s →
    (o.setKey s w).getKey k = o.getKey k
  | .nil, s, k, w, h => by
      simp [JObj.setKey, JObj.getKey, Ne.symm h]
  | .cons k2 v t, s, k, w, h => by
      by_cases hk2 : k2 = s
      · rw [JObj.setKey, if_pos hk2, JObj.getKey, JObj.getKey,
            if_neg (by rw [hk2]; exact fun he => h he.symm),
            if_neg (by rw [hk2]; exact fun he => h he.symm)]
      · rw [JObj.setKey, if_neg hk2, JObj.getKey, JObj.getKey]
        by_cases hkk : k2 = k
        · rw [if_pos hkk, if_pos hkk]
        · rw [if_neg hkk, if_neg hkk, getKey_setKey_ne t s k w h]

theorem normalizeData_obj_none (o : JObj) (h : o.getKey "data" = none) :
    normalizeData (.obj o) = .obj o := by
  rw [normalizeData, h]

theorem normalizeData_obj_some (o : JObj) (d : JVal) (h : o.getKey "data" = some d) :
    normalizeData (.obj o)
      = if d.truthy then .obj (o.setKey "data" (toCamelCase d false)) else .obj o := by
  rw [normalizeData, h]

theorem getKeyJ_normalizeData_ne (f : JVal) (k : String) (hk : k ≠ "data") :
    getKeyJ (normalizeData f) k = getKeyJ f k := by
  cases f with
  | obj o =>
    cases h : o.getKey "data" with
    | none => rw [normalizeData_obj_none o h]
    | some d =>
      rw [normalizeData_obj_some o d h]
      by_cases ht : d.truthy
      · rw [if_pos ht, getKeyJ, getKeyJ, getKey_setKey_ne o "data" k _ hk]
      · rw [if_neg ht]
  | null => rfl
  | undefined => rfl
  | bool b => rfl
  | num n => rfl
  | str s => rfl
  | arr a => rfl

example (pend : List String) (f : JVal) (s : String)
    (htype : getKeyJ (normalizeData f) "type" = some (.str "cmdRet"))
    (hid : getKeyJ (normalizeData f) "cmdId" = some (.str s))
    (hs : s ≠ "")
    (hnp : ("RET#" ++ s) ∉ pend) :
    routeFrame pend f =
      (pend, [.msgEv (normalizeData f),
              .warnEv ("返回执行结果没有被监听！指令ID:" ++ s) .undefined]) := by
  rw [routeFrame]
  simp only [htype, if_pos rfl]
  simp only [getD, hid, Option.getD_some]
  simp only [JVal.truthy, jsStringOf]
  simp [hs, hnp]

theorem getKey_setKey_self : ∀ (o : JObj) (s : String) (w : JVal),
    (o.setKey s w).getKey s = some w
  | .nil, s, w => by rw [JObj.setKey, JObj.getKey, if_pos rfl]
  | .cons k v t, s, w => by
      by_cases hk : k = s
      · rw [JObj.setKey, if_pos hk, JObj.getKey, if_pos hk]
      · rw [JObj.setKey, if_neg hk, JObj.getKey, if_neg hk, getKey_setKey_self t s w]

theorem getKeyJ_some_obj (v : JVal) (k : String) (w : JVal)
    (h : getKeyJ v k = some w) : ∃ o : JObj, v = .obj o := by
  cases v with
  | obj o => exact ⟨o, rfl⟩
  | null => simp [getKeyJ] at h
  | undefined => simp [getKeyJ] at h
  | bool b => simp [getKeyJ] at h
  | num n => simp [getKeyJ] at h
  | str s => simp [getKeyJ] at h
  | arr a => simp [getKeyJ] at h

theorem getKey_none_of_not_mem : ∀ (o : JObj) (s : String), s ∉ o.keys →
    o.getKey s = none
  | .nil, _, _ => rfl
  | .cons k v t, s, h => by
      have hk : k ≠ s := by
        intro hk; exact h (by simp [JObj.keys, hk])
      rw [JObj.getKey, if_neg hk,
          getKey_none_of_not_mem t s (fun hm => h (by simp [JObj.keys, hm]))]

theorem getKey_delKey_self (o : JObj) (s : String) (h : o.keys.Nodup) :
    (o.delKey s).getKey s = none := by
  refine getKey_none_of_not_mem _ s ?_
  rw [JObj.keys_delKey]
  exact h.not_mem_erase

theorem getKey_delKey_ne : ∀ (o : JObj) (s k : String), k ≠ s →
    (o.delKey s).getKey k = o.getKey k
  | .nil, _, _, _ => rfl
  | .cons k2 v t, s, k, h => by
      by_cases hk2 : k2 = s
      · rw [JObj.delKey, if_pos hk2, JObj.getKey,
            if_neg (by rw [hk2]; exact fun he => h he.symm)]
      · rw [JObj.delKey, if_neg hk2, JObj.getKey, JObj.getKey]
        by_cases hkk : k2 = k
        · rw [if_pos hkk, if_pos hkk]
        · rw [if_neg hkk, if_neg hkk, getKey_delKey_ne t s k h]

theorem pushItem1_eq (item : JVal) :
    pushItem1 item
      = if isNoise item then none
        else some (.pushEv (setField item "mType" (effType item))) := rfl

theorem pushEvents_eq : ∀ l : List JVal,
    pushEvents l = (l.filter (fun i => !(isNoise i))).map
      (fun i => Ev.pushEv (setField i "mType" (effType i)))
  | [] => rfl
  | x :: l => by
      rw [pushEvents, List.filterMap_cons, List.filter_cons]
      by_cases h : isNoise x = true
      · rw [pushItem1_eq, if_pos h]
        simp only [h, Bool.not_true, Bool.false_eq_true, if_false]
        exact pushEvents_eq l
      · rw [pushItem1_eq, if_neg h]
        simp only [Bool.not_eq_true] at h
        simp only [h, Bool.not_false, if_true, List.map_cons]
        rw [← pushEvents, pushEvents_eq l]

theorem routerStep_parsed (pend : List String) (f : JVal) :
    routerStep pend (.parsed f) = if f = JVal.null then none else some (routeFrame pend f) := rfl

/-! ## Claim C1 -/

/-- C1: the claim says a command whose reply never arrives rejects with a
Timeout error within approximately the configured millisecond deadline
(1000-1050 ms for a 1000 ms timeout), with the pending entry removed.  The
code instead arms the eviction timer at `timeout * 1000` milliseconds
(1,000,000 ms for a 1000 ms timeout) and never propagates the timeout
rejection to the promise `asyncSend` returns, so the caller future stays
pending forever; only the listener removal happens, at the thousandfold
deadline. -/
theorem claimC1_timeout_behavior :
    timerFire 1000 = 1000000
    ∧ ¬ (timerFire 1000 ≤ 1050)
    ∧ (∀ t, asyncSendAt true "" none 1000 t = .pending)
    ∧ (∀ t, retListenerAt none 1000 (1000000 + t) = false) := by
  refine ⟨rfl, by decide, fun t => ?_, fun t => ?_⟩
  · by_cases h : timerFire 1000 ≤ t <;>
      simp [asyncSendAt, getCmdRecvAt, h]
  · simp [retListenerAt, timerFire]

/-! ## Claim C3 -/

/-- C3: the claim says a websocket transmit failure is surfaced to the
caller as a rejected delivery.  The promise of `_send` does reject, but
`asyncSend` attaches no rejection handler to it, so the caller future
returned by `asyncSend` never settles: the failure is silently dropped. -/
theorem claimC3_transport_failure :
    (∀ emsg, sendPromiseAt false emsg = .rejected ("ws发送数据失败! err: " ++ emsg))
    ∧ (∀ emsg timeout t, asyncSendAt false emsg none timeout t = .pending) := by
  refine ⟨fun emsg => rfl, fun emsg timeout t => ?_⟩
  by_cases h : timerFire timeout ≤ t <;>
    simp [asyncSendAt, getCmdRecvAt, h]

/-! ## Claim C2 -/

/-- C2: an inbound cmdRet frame carrying a cmdId with no registered waiter
makes the router emit exactly one warn diagnostic, resolve no reply
listener, and leave the listener table unchanged. -/
theorem claimC2_unmonitored_reply (pend : List String) (f : JVal) (s : String)
    (htype : getKeyJ f "type" = some (.str "cmdRet"))
    (hid : getKeyJ f "cmdId" = some (.str s))
    (hs : s ≠ "")
    (hnp : ("RET#" ++ s) ∉ pend) :
    routerStep pend (.parsed f)
      = some (pend, [.msgEv (normalizeData f),
                     .warnEv ("返回执行结果没有被监听！指令ID:" ++ s) .undefined])
    ∧ countWarn [.msgEv (normalizeData f),
                 .warnEv ("返回执行结果没有被监听！指令ID:" ++ s) .undefined] = 1
    ∧ countRet [.msgEv (normalizeData f),
                .warnEv ("返回执行结果没有被监听！指令ID:" ++ s) .undefined] = 0 := by
  have htype' : getKeyJ (normalizeData f) "type" = some (.str "cmdRet") := by
    rw [getKeyJ_normalizeData_ne f "type" (by decide)]; exact htype
  have hid' : getKeyJ (normalizeData f) "cmdId" = some (.str s) := by
    rw [getKeyJ_normalizeData_ne f "cmdId" (by decide)]; exact hid
  have hnull : f ≠ JVal.null := by
    intro he; rw [he] at htype; simp [getKeyJ] at htype
  refine ⟨?_, rfl, rfl⟩
  rw [routerStep_parsed, if_neg hnull]
  refine congrArg some ?_
  rw [routeFrame]
  simp only [htype', if_pos rfl]
  simp only [getD, hid', Option.getD_some]
  simp only [JVal.truthy, jsStringOf]
  simp [hs, hnp]

/-- Witness for C2 at a concrete frame and empty listener table. -/
theorem claimC2_unmonitored_reply_witness :
    ("RET#id1" ∉ ([] : List String))
    ∧ routerStep []
        (.parsed (JVal.obj (JObj.cons "type" (JVal.str "cmdRet")
          (JObj.cons "cmdId" (JVal.str "id1") JObj.nil))))
      = some ([], [.msgEv (JVal.obj (JObj.cons "type" (JVal.str "cmdRet")
                     (JObj.cons "cmdId" (JVal.str "id1") JObj.nil))),
                   .warnEv "返回执行结果没有被监听！指令ID:id1" .undefined]) :=
  ⟨by decide,
    ((claimC2_unmonitored_reply [] _ "id1" (by decide) (by decide) (by decide)
      (by decide)).1).trans (by decide)⟩

/-! ## Claim C4 -/

/-- C4 counterexample: on the input `{a__b: 1}` both revisions of the
normalizer map `a__b` to `a_b` on a first pass and to `aB` on a second
pass, so normalizing twice differs from normalizing once. -/
theorem claimC4_counterexample :
    (toCamelCase (toCamelCase
        (.obj (JObj.cons "a__b" (.num 1) JObj.nil)) false) false
      ≠ toCamelCase (.obj (JObj.cons "a__b" (.num 1) JObj.nil)) false)
    ∧ (toCamelCaseShallow (toCamelCaseShallow
        (.obj (JObj.cons "a__b" (.num 1) JObj.nil)))
      ≠ toCamelCaseShallow (.obj (JObj.cons "a__b" (.num 1) JObj.nil))) := by
  constructor <;> decide

/-- C4 (amended): the key-casing normalizer is idempotent on every nested
structure whose mappings have duplicate-free keys and no key containing
two consecutive underscores. -/
theorem claimC4_idempotent (v : JVal) (h : v.wfnd = true) :
    toCamelCase (toCamelCase v false) false = toCamelCase v false :=
  toCamelCase_idem v h

/-- Witness for the amended C4 on a concrete nested structure. -/
theorem claimC4_idempotent_witness :
    (JVal.obj (JObj.cons "msg_type" (.num 5)
      (JObj.cons "list" (.arr (JArr.cons (.obj (JObj.cons "sub_type" (.num 7)
        JObj.nil)) JArr.nil)) JObj.nil))).wfnd = true
    ∧ toCamelCase (toCamelCase (JVal.obj (JObj.cons "msg_type" (.num 5)
        (JObj.cons "list" (.arr (JArr.cons (.obj (JObj.cons "sub_type" (.num 7)
          JObj.nil)) JArr.nil)) JObj.nil))) false) false
      = toCamelCase (JVal.obj (JObj.cons "msg_type" (.num 5)
          (JObj.cons "list" (.arr (JArr.cons (.obj (JObj.cons "sub_type" (.num 7)
            JObj.nil)) JArr.nil)) JObj.nil))) false :=
  ⟨by decide, claimC4_idempotent _ (by decide)⟩

/-! ## Claim C5 -/

/-- C5: the recursive normalizer returns scalars unchanged, maps sequences
elementwise preserving their order, and rewrites every mapping key through
the camel renaming recursively (bindings with already-camel keys stay in
place, renamed bindings are appended; the multiset of keys is exactly the
camel image), and on an underscore-separated key the renaming concatenates
the segments, capitalizing each segment after the first. -/
theorem claimC5_normalizer :
    (toCamelCase .null false = .null
      ∧ toCamelCase .undefined false = .undefined
      ∧ (∀ b, toCamelCase (.bool b) false = .bool b)
      ∧ (∀ n, toCamelCase (.num n) false = .num n)
      ∧ (∀ s, toCamelCase (.str s) false = .str s))
    ∧ (∀ a : JArr, toCamelCase (.arr a) false = .arr (camelArr a)
        ∧ (camelArr a).toList = a.toList.map (fun v => toCamelCase v false))
    ∧ (∀ o : JObj, o.keys.Nodup → (o.keys.map (camelKey false)).Nodup →
        (∀ k ∈ o.keys, camelKey false k = k ∨ camelKey false k ∉ o.keys) →
        toCamelCase (.obj o) false = .obj ((fixObj o).app (renObj o))
          ∧ ((fixObj o).app (renObj o)).keys.Perm (o.keys.map (camelKey false)))
    ∧ (∀ (a : String) (c : Char) (r : List Char),
        (∀ x ∈ a.data, x ≠ '_') → isWordChar c = true → (∀ x ∈ r, x ≠ '_') →
        camelKey false (a ++ "_" ++ String.mk (c :: r))
          = a ++ String.mk (jsUpper c :: r)) := by
  refine ⟨⟨rfl, rfl, fun b => rfl, fun n => rfl, fun s => rfl⟩,
    fun a => ⟨rfl, camelArr_toList a⟩,
    fun o h1 h2 h3 => ⟨toCamelCase_obj_closed o h1 h2 h3, fix_ren_keys_perm o⟩,
    fun a c r ha hc hr => camelKey_seg a c r ha hc hr⟩

/-- Witness for C5: the object branch at a concrete mapping and the key
renaming at a concrete underscore-separated key. -/
theorem claimC5_normalizer_witness :
    (JObj.cons "msg_type" (.num 5) (JObj.cons "subType" (.str "x") JObj.nil)).keys.Nodup
    ∧ toCamelCase (.obj (JObj.cons "msg_type" (.num 5)
        (JObj.cons "subType" (.str "x") JObj.nil))) false
      = .obj (JObj.cons "subType" (.str "x") (JObj.cons "msgType" (.num 5) JObj.nil))
    ∧ camelKey false ("user" ++ "_" ++ String.mk ('n' :: "ame".data))
      = "user" ++ String.mk (jsUpper 'n' :: "ame".data) := by
  refine ⟨by decide, ?_, ?_⟩
  · exact ((claimC5_normalizer.2.2.1 _ (by decide) (by decide) (by decide)).1).trans
      (by decide)
  · exact claimC5_normalizer.2.2.2 "user" 'n' "ame".data (by decide) (by decide)
      (by decide)

/-! ## Claim C6 -/

/-- C6 counterexample: the recursive normalizer renames the keys of the
caller-owned object in place and returns that same object, so after the
call the caller holds `{aB: 1}` where it held `{a_b: 1}`: the original
structure is observably changed. -/
theorem claimC6_counterexample :
    callerAfterToCamelCase (.obj (JObj.cons "a_b" (.num 1) JObj.nil))
      ≠ .obj (JObj.cons "a_b" (.num 1) JObj.nil) := by
  decide

/-- C6 (amended): the call leaves the caller structure unchanged exactly
on structures already in normal form (duplicate-free, camel-fixed keys,
recursively); in general the caller is left holding the converted
structure. -/
theorem claimC6_unchanged_normal (v : JVal) (h : v.normal = true) :
    callerAfterToCamelCase v = v :=
  normal_fix v h

/-- Witness for the amended C6 on a concrete normal-form structure. -/
theorem claimC6_unchanged_normal_witness :
    (JVal.obj (JObj.cons "msgType" (.num 5) JObj.nil)).normal = true
    ∧ callerAfterToCamelCase (JVal.obj (JObj.cons "msgType" (.num 5) JObj.nil))
      = JVal.obj (JObj.cons "msgType" (.num 5) JObj.nil) :=
  ⟨by decide, claimC6_unchanged_normal _ (by decide)⟩

/-! ## Claim C7 -/

/-- C7: in a push batch, items whose primary type is absent, 2048 or 32768
are dropped silently, every other item yields exactly one push event in
the original relative order, and the emitted item carries `mType` equal to
the sub-type when the primary type is 5 and to the primary type otherwise;
the push branch of the router emits exactly these events after the
`msg` event. -/
theorem claimC7_push_batch :
    (∀ l : List JVal, pushEvents l = (l.filter (fun i => !(isNoise i))).map
        (fun i => Ev.pushEv (setField i "mType" (effType i))))
    ∧ (∀ (item sv : JVal), getKeyJ item "msgType" = some (.num 5) →
        getKeyJ item "subType" = some sv →
        isNoise item = false ∧ effType item = sv
          ∧ getKeyJ (setField item "mType" (effType item)) "mType" = some sv)
    ∧ (∀ (item : JVal) (n : Int), getKeyJ item "msgType" = some (.num n) →
        n ≠ 5 → n ≠ 2048 → n ≠ 32768 →
        isNoise item = false ∧ effType item = .num n
          ∧ getKeyJ (setField item "mType" (effType item)) "mType" = some (.num n))
    ∧ (∀ (pend : List String) (f : JVal),
        getKeyJ f "type" = some (.str "userEvent") →
        getKeyJ f "event" = some (.str "push") →
        pushOk (normalizeData f) = true →
        routerStep pend (.parsed f) = some (pend,
          .msgEv (normalizeData f)
            :: pushEvents ((pushList (normalizeData f)).getD JArr.nil).toList)) := by
  refine ⟨pushEvents_eq, ?_, ?_, ?_⟩
  · intro item sv h5 hsub
    have heff : effType item = sv := by
      rw [effType, if_pos h5, getD, hsub, Option.getD_some]
    obtain ⟨o, rfl⟩ := getKeyJ_some_obj item "msgType" _ h5
    refine ⟨by simp [isNoise, h5], heff, ?_⟩
    rw [heff, setField, getKeyJ, getKey_setKey_self]
  · intro item n hn hn5 hn2048 hn32768
    have hne5 : getKeyJ item "msgType" ≠ some (JVal.num 5) := by
      rw [hn]; simp [hn5]
    have heff : effType item = .num n := by
      rw [effType, if_neg hne5, getD, hn, Option.getD_some]
    obtain ⟨o, rfl⟩ := getKeyJ_some_obj item "msgType" _ hn
    refine ⟨by simp [isNoise, hn, hn2048, hn32768], heff, ?_⟩
    rw [heff, setField, getKeyJ, getKey_setKey_self]
  · intro pend f htype hevent hok
    have htype' : getKeyJ (normalizeData f) "type" = some (.str "userEvent") := by
      rw [getKeyJ_normalizeData_ne f "type" (by decide)]; exact htype
    have hevent' : getKeyJ (normalizeData f) "event" = some (.str "push") := by
      rw [getKeyJ_normalizeData_ne f "event" (by decide)]; exact hevent
    have hnull : f ≠ JVal.null := by
      intro he; rw [he] at htype; simp [getKeyJ] at htype
    rw [routerStep_parsed, if_neg hnull]
    refine congrArg some ?_
    rw [routeFrame]
    simp only [htype', hevent']
    simp [isLifecycleEvent, hevent', lifecycleNames, hok]

/-- Witness for C7: a concrete batch holding a noise item, an item of
primary type 5 with sub-type 7, and a plain item of type 1. -/
theorem claimC7_push_batch_witness :
    (getKeyJ (.obj (JObj.cons "msgType" (.num 5)
        (JObj.cons "subType" (.num 7) JObj.nil))) "msgType" = some (.num 5))
    ∧ isNoise (.obj (JObj.cons "msgType" (.num 5)
        (JObj.cons "subType" (.num 7) JObj.nil))) = false
    ∧ getKeyJ (setField (.obj (JObj.cons "msgType" (.num 5)
          (JObj.cons "subType" (.num 7) JObj.nil))) "mType"
        (effType (.obj (JObj.cons "msgType" (.num 5)
          (JObj.cons "subType" (.num 7) JObj.nil))))) "mType" = some (.num 7)
    ∧ pushEvents [.obj (JObj.cons "msgType" (.num 2048) JObj.nil),
                  .obj (JObj.cons "msgType" (.num 5)
                    (JObj.cons "subType" (.num 7) JObj.nil)),
                  .obj (JObj.cons "msgType" (.num 1) JObj.nil)]
      = [.pushEv (.obj (JObj.cons "msgType" (.num 5)
           (JObj.cons "subType" (.num 7) (JObj.cons "mType" (.num 7) JObj.nil)))),
         .pushEv (.obj (JObj.cons "msgType" (.num 1)
           (JObj.cons "mType" (.num 1) JObj.nil)))] := by
  have h := claimC7_push_batch.2.1 (.obj (JObj.cons "msgType" (.num 5)
    (JObj.cons "subType" (.num 7) JObj.nil))) (.num 7) (by decide) (by decide)
  exact ⟨by decide, h.1, h.2.2.trans (by decide), by decide⟩

/-! ## Claim C8 -/

/-- C8 counterexample: a push frame with no payload list makes the router
emit the anomaly on the error channel, not on the warning channel as the
claim states (zero warning events are emitted). -/
theorem claimC8_counterexample :
    routerStep [] (.parsed (JVal.obj (JObj.cons "type" (JVal.str "userEvent")
        (JObj.cons "event" (JVal.str "push") JObj.nil))))
      = some ([], [.msgEv (JVal.obj (JObj.cons "type" (JVal.str "userEvent")
                    (JObj.cons "event" (JVal.str "push") JObj.nil))),
                   .errEv "推送数据异常！"])
    ∧ countWarn [.msgEv (JVal.obj (JObj.cons "type" (JVal.str "userEvent")
                   (JObj.cons "event" (JVal.str "push") JObj.nil))),
                 .errEv "推送数据异常！"] = 0 := by
  constructor <;> decide

/-- C8 (amended): a userEvent push frame whose payload lacks a non-empty
list makes the router emit exactly one anomaly on the error channel, no
push event and no warning event, leave the listener table unchanged, and
continue (the step is total). -/
theorem claimC8_malformed_push (pend : List String) (f : JVal)
    (htype : getKeyJ f "type" = some (.str "userEvent"))
    (hevent : getKeyJ f "event" = some (.str "push"))
    (hbad : pushOk (normalizeData f) = false) :
    routerStep pend (.parsed f)
      = some (pend, [.msgEv (normalizeData f), .errEv "推送数据异常！"])
    ∧ countWarn [.msgEv (normalizeData f), .errEv "推送数据异常！"] = 0
    ∧ countPush [.msgEv (normalizeData f), .errEv "推送数据异常！"] = 0 := by
  have htype' : getKeyJ (normalizeData f) "type" = some (.str "userEvent") := by
    rw [getKeyJ_normalizeData_ne f "type" (by decide)]; exact htype
  have hevent' : getKeyJ (normalizeData f) "event" = some (.str "push") := by
    rw [getKeyJ_normalizeData_ne f "event" (by decide)]; exact hevent
  have hnull : f ≠ JVal.null := by
    intro he; rw [he] at htype; simp [getKeyJ] at htype
  refine ⟨?_, rfl, rfl⟩
  rw [routerStep_parsed, if_neg hnull]
  refine congrArg some ?_
  rw [routeFrame]
  simp only [htype', hevent']
  simp [isLifecycleEvent, hevent', lifecycleNames, hbad]

/-- Witness for the amended C8 at a concrete malformed push frame. -/
theorem claimC8_malformed_push_witness :
    pushOk (normalizeData (JVal.obj (JObj.cons "type" (JVal.str "userEvent")
        (JObj.cons "event" (JVal.str "push") JObj.nil)))) = false
    ∧ routerStep ["RET#a"] (.parsed (JVal.obj (JObj.cons "type" (JVal.str "userEvent")
        (JObj.cons "event" (JVal.str "push") JObj.nil))))
      = some (["RET#a"],
          [.msgEv (JVal.obj (JObj.cons "type" (JVal.str "userEvent")
             (JObj.cons "event" (JVal.str "push") JObj.nil))),
           .errEv "推送数据异常！"]) :=
  ⟨by decide,
    ((claimC8_malformed_push ["RET#a"] _ (by decide) (by decide) (by decide)).1).trans
      (by decide)⟩

/-! ## Claim C9 -/

/-- C9: a frame that is not a string or not valid JSON produces exactly
one decode-error event, no other event, leaves the listener table
unchanged, and the routing of any subsequent frame is the same as if the
bad frame had never arrived. -/
theorem claimC9_decode_error (pend : List String) (raw : Raw)
    (h : parseRaw raw = none) :
    routerStep pend raw = some (pend, [.errEv ("解析msg数据失败: " ++ decodeErrMsg raw)])
    ∧ (∀ raw2, routerStep ((routerStep pend raw).getD (pend, [])).1 raw2
        = routerStep pend raw2) := by
  cases raw with
  | notStr => exact ⟨rfl, fun raw2 => rfl⟩
  | badJson e => exact ⟨rfl, fun raw2 => rfl⟩
  | parsed v => simp [parseRaw] at h

/-- Witness for C9 at a concrete non-string frame followed by a concrete
well-formed frame. -/
theorem claimC9_decode_error_witness :
    parseRaw Raw.notStr = none
    ∧ routerStep ["RET#a"] Raw.notStr
        = some (["RET#a"], [.errEv ("解析msg数据失败: " ++ decodeErrMsg Raw.notStr)])
    ∧ routerStep ((routerStep ["RET#a"] Raw.notStr).getD (["RET#a"], [])).1
        (.parsed (.num 3))
      = routerStep ["RET#a"] (.parsed (.num 3)) :=
  ⟨rfl, (claimC9_decode_error ["RET#a"] Raw.notStr rfl).1,
    (claimC9_decode_error ["RET#a"] Raw.notStr rfl).2 (.parsed (.num 3))⟩

/-! ## Claim C10 -/

/-- C10: the sanitizing step of sendCmd deletes the `data` property of the
caller-owned rawMsgData object in place: after the call the caller object
no longer carries `data`, while every other binding is untouched. -/
theorem claimC10_rawMsgData (o : JObj) (h : o.keys.Nodup) :
    callerRawMsgAfterSendCmd (.obj o) = .obj (o.delKey "data")
    ∧ (o.delKey "data").getKey "data" = none
    ∧ (∀ k, k ≠ "data" → (o.delKey "data").getKey k = o.getKey k) :=
  ⟨rfl, getKey_delKey_self o "data" h, fun k hk => getKey_delKey_ne o "data" k hk⟩

/-- Witness for C10 at a concrete push-item payload. -/
theorem claimC10_rawMsgData_witness :
    (JObj.cons "data" (JVal.str "blob")
      (JObj.cons "msg_id" (JVal.str "1") JObj.nil)).keys.Nodup
    ∧ ((JObj.cons "data" (JVal.str "blob")
        (JObj.cons "msg_id" (JVal.str "1") JObj.nil)).delKey "data").getKey "data"
      = none :=
  ⟨by decide,
    (claimC10_rawMsgData (JObj.cons "data" (JVal.str "blob")
      (JObj.cons "msg_id" (JVal.str "1") JObj.nil)) (by decide)).2.1⟩
